import Mathlib

set_option maxRecDepth 10000

namespace Anglosaxon

/-!
Shallow embedding of the anglosaxon streaming XML-to-text converter
(src/main.rs) together with theorems about its filters, its
attribute-specifier parsing, its instruction compiler, its
ordered-argument reconstructor and its streaming executor.

Rust `Cow<str>` values are modelled by an explicit borrowed/owned sum,
machine strings by Lean `String`, fallible code by `Except String`,
and the two kinds of run-time termination (an `anyhow` error returned
with `?`/`bail!`, versus a `todo!()` or out-of-bounds panic) by the
`Failure` sum type.  The executor threads an explicit state (output
accumulated so far plus the two ancestor stacks) and stops at the
first failure, so the output component at a failure is exactly the
bytes written before the failure point.
-/

/-- A borrowed-or-owned string, mirroring `Cow<'a, str>`: either the
unchanged reference to the input, or newly allocated text. -/
inductive Cow where
  | borrowed (s : String)
  | owned (s : String)
deriving DecidableEq

/-- The text carried by a `Cow`, ignoring the allocation discriminant. -/
def Cow.contents : Cow → String
  | .borrowed s => s
  | .owned s => s

/-- The `TextFilter` enum: `Nothing`, `UnixEscape`, `TSVEscape`. -/
inductive TextFilter where
  | nothing
  | unixEscape
  | tsvEscape
deriving DecidableEq

/-- Lower-case hexadecimal digit, used by `char::escape_default`. -/
def hexDigit (n : Nat) : Char :=
  if n < 10 then Char.ofNat (48 + n) else Char.ofNat (87 + n)

/-- Lower-case hexadecimal rendering of a natural number. -/
def toHex (n : Nat) : String :=
  if _h : n < 16 then String.mk [hexDigit n]
  else toHex (n / 16) ++ String.mk [hexDigit (n % 16)]
decreasing_by exact Nat.div_lt_self (by omega) (by omega)

/-- Rust `char::escape_default`: tab, carriage return, newline,
backslash, apostrophe and double quote get a backslash escape,
printable ASCII is kept, everything else becomes a unicode escape. -/
def charEscapeDefault (c : Char) : String :=
  if c = '\t' then "\\t"
  else if c = '\r' then "\\r"
  else if c = '\n' then "\\n"
  else if c = '\\' then "\\\\"
  else if c.toNat = 39 then "\\" ++ String.mk [Char.ofNat 39]
  else if c = '\"' then "\\\""
  else if 0x20 ≤ c.toNat ∧ c.toNat < 0x7f then String.mk [c]
  else "\\u\x7b" ++ toHex c.toNat ++ "\x7d"

/-- Rust `str::escape_default`, character by character. -/
def escDefaultList : List Char → List Char
  | [] => []
  | c :: rest => (charEscapeDefault c).data ++ escDefaultList rest

/-- Rust `str::replace` with a single-character pattern. -/
def replaceChar (c : Char) (r : String) : List Char → List Char
  | [] => []
  | a :: rest => if a = c then r.data ++ replaceChar c r rest else a :: replaceChar c r rest

/-- The character test used by the `TSVEscape` guard in
`TextFilter::apply`. -/
def needsTsvEscape (c : Char) : Bool :=
  c == '\n' || c == '\t' || c == '\r' || c == '\\'

/-- `TextFilter::apply`.  `Nothing` returns its input; `UnixEscape`
always allocates (`Cow::Owned(s.escape_default().to_string())`);
`TSVEscape` returns the input unchanged unless it contains a newline,
tab, carriage return or backslash, in which case it allocates the
result of replacing newline, tab and carriage return (the source never
replaces the backslash itself). -/
def TextFilter.apply (f : TextFilter) (s : Cow) : Cow :=
  match f with
  | .nothing => s
  | .unixEscape => Cow.owned (String.mk (escDefaultList s.contents.data))
  | .tsvEscape =>
    if s.contents.data.any needsTsvEscape then
      Cow.owned (String.mk (replaceChar '\r' "\\r" (replaceChar '\t' "\\t" (replaceChar '\n' "\\n" s.contents.data))))
    else s

/-- The `Filters` newtype around a vector of text filters. -/
structure Filters where
  toList : List TextFilter
deriving DecidableEq

/-- `TextFilter::from_str`: the closed set of filter names. -/
def TextFilter.fromStr (s : String) : Except String TextFilter :=
  if s = "nothing" ∨ s = "none" then .ok .nothing
  else if s = "unix" then .ok .unixEscape
  else if s = "tsv" then .ok .tsvEscape
  else .error ("Unknown filter " ++ s)

/-- Rust `str::split` on the character bang, as used by
`Filters::parse_both`. -/
def splitOnBang : List Char → List (List Char)
  | [] => [[]]
  | c :: rest =>
    if c = '!' then [] :: splitOnBang rest
    else
      match splitOnBang rest with
      | [] => [[c]]
      | g :: gs => (c :: g) :: gs

/-- `Filters::parse_both`: no bang means no filters (short circuit),
otherwise split on bang into the attribute name and the list of filter
names, each parsed by `TextFilter::from_str`. -/
def Filters.parseBoth (s : String) : Except String (String × Filters) :=
  if ¬ s.data.any (fun c => c == '!') then .ok (s, ⟨[]⟩)
  else
    let splits := splitOnBang s.data
    if splits.length ≥ 2 then
      match (splits.drop 1).mapM (fun l => TextFilter.fromStr (String.mk l)) with
      | .ok fs => .ok (String.mk (splits.headD []), ⟨fs⟩)
      | .error e => .error e
    else .error "splits.len() >= 2"

/-- `Filters::apply`: fold the filters over the text, left to right. -/
def Filters.apply (fs : Filters) (s : Cow) : Cow :=
  fs.toList.foldl (fun acc f => f.apply acc) s

/-- The `Action` enum of main.rs. -/
inductive Action where
  | RawString (s : String)
  | Attribute (attr : String) (filters : Filters)
  | AttributeWithDefault (attr : String) (dflt : String) (filters : Filters)
  | ParentAttribute (level : Nat) (attr : String) (filters : Filters)
  | ParentAttributeWithDefault (level : Nat) (attr : String) (dflt : String) (filters : Filters)
deriving DecidableEq

/-- `Action::is_parent_attr`. -/
def Action.isParentAttr : Action → Bool
  | .ParentAttribute _ _ _ => true
  | .ParentAttributeWithDefault _ _ _ _ => true
  | _ => false

/-- Whether an action is a literal-text (`RawString`) action. -/
def Action.isRawString : Action → Bool
  | .RawString _ => true
  | _ => false

/-- The `Instruction` enum of main.rs. -/
inductive Instruction where
  | startDocument (actions : List Action)
  | startTag (tag : String) (actions : List Action)
  | endTag (tag : String) (actions : List Action)
  | endDocument (actions : List Action)
deriving DecidableEq

/-- `Instruction::actions`. -/
def Instruction.actions : Instruction → List Action
  | .startDocument a => a
  | .startTag _ a => a
  | .endTag _ a => a
  | .endDocument a => a

/-- `actions_mut().push(..)`: append one action to an instruction. -/
def Instruction.pushAction : Instruction → Action → Instruction
  | .startDocument acts, a => .startDocument (acts ++ [a])
  | .startTag t acts, a => .startTag t (acts ++ [a])
  | .endTag t acts, a => .endTag t (acts ++ [a])
  | .endDocument acts, a => .endDocument (acts ++ [a])

/-- An XML attribute: local name and value. -/
abbrev Attr := String × String

/-- The events of the external SAX reader that the executor matches
on; every other event kind is collapsed into `other` because the
source ignores it with a wildcard arm. -/
inductive XmlEvent where
  | startDocument
  | startElement (name : String) (attributes : List Attr)
  | endElement (name : String)
  | endDocument
  | other
deriving DecidableEq

/-- How a run can stop early: an `anyhow` error returned through `?`
or `bail!` (`fatal`), or a Rust panic such as `todo!()` or an
out-of-bounds index (`panicked`). -/
inductive Failure where
  | fatal (msg : String)
  | panicked (msg : String)
deriving DecidableEq

/-- Rust `Vec::<String>::join(",")`. -/
def joinComma : List String → String
  | [] => ""
  | [x] => x
  | x :: rest => x ++ "," ++ joinComma rest

/-- The `iter().filter_map(..).next()` lookup of the first attribute
with the given local name, shared by `get_attr` and the with-default
branches. -/
def firstAttrValue (attributes : List Attr) (attr : String) : Option String :=
  (attributes.filterMap (fun a => if a.1 = attr then some a.2 else none)).head?

/-- `get_attr`: the first attribute with the given name, or a
descriptive error naming the attribute, the tag and the attribute
names actually present. -/
def getAttr (attributes : List Attr) (attr tag : String) : Except String String :=
  match firstAttrValue attributes attr with
  | some v => .ok v
  | none =>
    .error ("No attribute " ++ attr ++ " found for element " ++ tag ++ ". Attributes: "
      ++ joinComma (attributes.map (fun a => a.1)))

/-- The executor state: output written so far plus the two ancestor
stacks `parent_attrs` and `parent_tags` (pushed at the end, like a
`Vec`). -/
structure PState where
  out : String
  parentAttrs : List (List Attr)
  parentTags : List String
deriving DecidableEq

/-- One action of a matching `StartTag` instruction, exactly the five
arms of the `StartElement` branch of `process`. -/
def runStartTagAction (attributes : List Attr) (tag : String) (st : PState) (a : Action) :
    PState × Option Failure :=
  match a with
  | .RawString s => ({ st with out := st.out ++ s }, none)
  | .Attribute attr filters =>
    match getAttr attributes attr tag with
    | .ok value => ({ st with out := st.out ++ (filters.apply (Cow.borrowed value)).contents }, none)
    | .error e => (st, some (.fatal e))
  | .AttributeWithDefault attr dflt filters =>
    let value := (firstAttrValue attributes attr).getD dflt
    ({ st with out := st.out ++ (filters.apply (Cow.borrowed value)).contents }, none)
  | .ParentAttribute level attr filters =>
    if st.parentAttrs.length < level then (st, some (.fatal ""))
    else
      match st.parentAttrs.get? (st.parentAttrs.length - level),
            st.parentTags.get? (st.parentAttrs.length - level) with
      | some pAttrs, some pTag =>
        match getAttr pAttrs attr pTag with
        | .ok value => ({ st with out := st.out ++ (filters.apply (Cow.borrowed value)).contents }, none)
        | .error e => (st, some (.fatal e))
      | _, _ => (st, some (.panicked "index out of bounds"))
  | .ParentAttributeWithDefault level attr dflt filters =>
    if st.parentAttrs.length < level then (st, some (.fatal ""))
    else
      match st.parentAttrs.get? (st.parentAttrs.length - level) with
      | some pAttrs =>
        let value := (firstAttrValue pAttrs attr).getD dflt
        ({ st with out := st.out ++ (filters.apply (Cow.borrowed value)).contents }, none)
      | none => (st, some (.panicked "index out of bounds"))

/-- One action of a `StartDocument`, `EndTag` or `EndDocument`
instruction: the source writes `RawString` actions and hits `todo!()`
on every other action kind. -/
def runRawAction (st : PState) (a : Action) : PState × Option Failure :=
  match a with
  | .RawString s => ({ st with out := st.out ++ s }, none)
  | _ => (st, some (.panicked "not yet implemented"))

/-- Run steps left to right, stopping at the first failure (this is
the `?`-propagation / panic semantics of the Rust loops). -/
def foldStop (step : PState → α → PState × Option Failure) :
    PState → List α → PState × Option Failure
  | st, [] => (st, none)
  | st, a :: rest =>
    match step st a with
    | (st', none) => foldStop step st' rest
    | r => r

/-- The per-instruction step for a `StartDocument` event. -/
def stepInstrStartDoc (st : PState) (i : Instruction) : PState × Option Failure :=
  match i with
  | .startDocument actions => foldStop runRawAction st actions
  | _ => (st, none)

/-- The per-instruction step for a `StartElement` event with the given
name and attributes. -/
def stepInstrStartElem (name : String) (attributes : List Attr) (st : PState)
    (i : Instruction) : PState × Option Failure :=
  match i with
  | .startTag tag actions =>
    if tag = name then foldStop (runStartTagAction attributes tag) st actions else (st, none)
  | _ => (st, none)

/-- The per-instruction step for an `EndElement` event. -/
def stepInstrEndElem (name : String) (st : PState) (i : Instruction) :
    PState × Option Failure :=
  match i with
  | .endTag tag actions =>
    if tag = name then foldStop runRawAction st actions else (st, none)
  | _ => (st, none)

/-- The per-instruction step for an `EndDocument` event. -/
def stepInstrEndDoc (st : PState) (i : Instruction) : PState × Option Failure :=
  match i with
  | .endDocument actions => foldStop runRawAction st actions
  | _ => (st, none)

/-- One event of the main loop of `process`: run the matching
instructions, then (for element events, and only when ancestor
tracking is enabled and no failure happened) push or pop the ancestor
stacks. -/
def runEvent (hasPA : Bool) (instrs : List Instruction) (st : PState) (ev : XmlEvent) :
    PState × Option Failure :=
  match ev with
  | .startDocument => foldStop stepInstrStartDoc st instrs
  | .startElement name attributes =>
    match foldStop (stepInstrStartElem name attributes) st instrs with
    | (st', none) =>
      if hasPA then
        ({ st' with parentAttrs := st'.parentAttrs ++ [attributes],
                    parentTags := st'.parentTags ++ [name] }, none)
      else (st', none)
    | r => r
  | .endElement name =>
    match foldStop (stepInstrEndElem name) st instrs with
    | (st', none) =>
      if hasPA then
        ({ st' with parentAttrs := st'.parentAttrs.dropLast,
                    parentTags := st'.parentTags.dropLast }, none)
      else (st', none)
    | r => r
  | .endDocument => foldStop stepInstrEndDoc st instrs
  | .other => (st, none)

/-- The `has_parent_attributes` test computed once at the top of
`process`. -/
def hasParentAttributes (instrs : List Instruction) : Bool :=
  instrs.any (fun i => i.actions.any Action.isParentAttr)

/-- The main loop of `process` over a list of events, starting from a
given state. -/
def runEvents (hasPA : Bool) (instrs : List Instruction) (st : PState)
    (events : List XmlEvent) : PState × Option Failure :=
  foldStop (runEvent hasPA instrs) st events

/-- `process` on an event list, keeping the whole final state. -/
def processState (instrs : List Instruction) (events : List XmlEvent) :
    PState × Option Failure :=
  runEvents (hasParentAttributes instrs) instrs ⟨"", [], []⟩ events

/-- `process`: the output accumulated up to the end of the run or up
to the first failure, together with the failure (if any). -/
def process (instrs : List Instruction) (events : List XmlEvent) :
    String × Option Failure :=
  let r := processState instrs events
  (r.1.out, r.2)

/-- The `../` / `./` prefix-stripping loop of the `value` and
`value_with_default` branches of `parse_to_instructions`: each leading
ancestor-step marker increments the level, each leading current marker
is consumed with no effect. -/
def stripLevels : List Char → Nat × List Char
  | '.' :: '.' :: '/' :: rest => ((stripLevels rest).1 + 1, (stripLevels rest).2)
  | '.' :: '/' :: rest => stripLevels rest
  | l => (0, l)

/-- Commit the currently open instruction, if any. -/
def commitCurrent (instrs : List Instruction) : Option Instruction → List Instruction
  | some i => instrs ++ [i]
  | none => instrs

/-- One directive of the `parse_to_instructions` loop, acting on the
pair (committed instructions, currently open instruction). -/
def parseStep (st : List Instruction × Option Instruction) (arg : String × List String) :
    Except String (List Instruction × Option Instruction) :=
  let instrs := st.1
  let cur := st.2
  let name := arg.1
  let value := arg.2
  if name = "startdoc" then
    .ok (commitCurrent instrs cur, some (.startDocument []))
  else if name = "startelement" then
    .ok (commitCurrent instrs cur, some (.startTag (value.headD "") []))
  else if name = "endelement" then
    .ok (commitCurrent instrs cur, some (.endTag (value.headD "") []))
  else if name = "enddoc" then
    .ok (commitCurrent instrs cur, some (.endDocument []))
  else if name = "raw" then
    match cur with
    | none => .error "Cannot use -o before you have done a -s/-e"
    | some i => .ok (instrs, some (i.pushAction (.RawString (value.headD ""))))
  else if name = "newline" then
    match cur with
    | none => .error "Cannot use --nl before you have done a -s/-e"
    | some i => .ok (instrs, some (i.pushAction (.RawString "\n")))
  else if name = "tab" then
    match cur with
    | none => .error "Cannot use --tab before you have done a -s/-e"
    | some i => .ok (instrs, some (i.pushAction (.RawString "\t")))
  else if name = "value" then
    match cur with
    | none => .error "Cannot use -v before you have done a -s/-e"
    | some i =>
      let stripped := stripLevels (value.headD "").data
      match Filters.parseBoth (String.mk stripped.2) with
      | .error e => .error e
      | .ok (attr, filters) =>
        if stripped.1 = 0 then
          .ok (instrs, some (i.pushAction (.Attribute attr filters)))
        else
          .ok (instrs, some (i.pushAction (.ParentAttribute stripped.1 attr filters)))
  else if name = "value_with_default" then
    match cur with
    | none => .error "Cannot use -V before you have done a -s/-e"
    | some i =>
      let dflt := (value.drop 1).headD ""
      let stripped := stripLevels (value.headD "").data
      match Filters.parseBoth (String.mk stripped.2) with
      | .error e => .error e
      | .ok (attr, filters) =>
        if stripped.1 = 0 then
          .ok (instrs, some (i.pushAction (.AttributeWithDefault attr dflt filters)))
        else
          .ok (instrs, some (i.pushAction (.ParentAttributeWithDefault stripped.1 attr dflt filters)))
  else .error ("unknown arg: " ++ name)

/-- `parse_to_instructions` on an already ordered (directive, values)
list: a single left-to-right pass with the currently open instruction
as the only mutable state; the still-open instruction is committed at
the end. -/
def parseToInstructions (args : List (String × List String)) :
    Except String (List Instruction) := do
  let s ← args.foldlM parseStep ([], none)
  pure (commitCurrent s.1 s.2)

/-- The per-flag occurrence data that `clap_app_to_ordered_matches`
reads from the flag-parsing library: the flag's name, the number of
value slots one occurrence consumes (`num_vals`), the token-stream
indices of all consumed slots, and all captured values in order. -/
structure FlagSpec where
  name : String
  numVals : Nat
  indices : List Nat
  values : List String
deriving DecidableEq

/-- Rust `slice::chunks(n)`: chunks of `n` consecutive elements (the
`n = 0` case panics in Rust and is unreachable here, since the caller
guards it by `num_vals != 0`). -/
def chunksList : (n : Nat) → List α → List (List α)
  | _, [] => []
  | 0, _ :: _ => []
  | n + 1, x :: xs => (x :: xs.take n) :: chunksList (n + 1) (xs.drop n)
termination_by _ l => l.length
decreasing_by simp [List.length_drop]; omega

/-- One flag's contribution to the `results` vector of
`clap_app_to_ordered_matches`: nothing when the flag never occurred;
one `(index, name, [])` entry per occurrence for a zero-value flag;
otherwise the indices and values are chunked into occurrences and each
occurrence is keyed by the first index of its chunk. -/
def flagEntries (f : FlagSpec) : List (Nat × String × List String) :=
  if f.indices.isEmpty then []
  else if f.numVals = 0 then
    f.indices.map (fun i => (i, f.name, ([] : List String)))
  else
    ((chunksList f.numVals f.indices).zip (chunksList f.numVals f.values)).map
      (fun p => (p.1.headD 0, f.name, p.2))

/-- Stable insertion of one keyed entry into a list: the entry moves
past exactly the entries with a strictly smaller key, so an entry
inserted from the left of an equal-keyed entry stays to its left. -/
def insertByKey (x : Nat × String × List String) :
    List (Nat × String × List String) → List (Nat × String × List String)
  | [] => [x]
  | y :: ys => if y.1 < x.1 then y :: insertByKey x ys else x :: y :: ys

/-- The stable sort by token position (`results.sort_by_key(|x| x.0)`;
Rust's sort is stable, and stable sorting is extensionally unique, so
a stable insertion sort is a faithful model). -/
def sortByKey : List (Nat × String × List String) → List (Nat × String × List String)
  | [] => []
  | x :: xs => insertByKey x (sortByKey xs)

/-- `clap_app_to_ordered_matches`, after the occurrence data has been
extracted from the flag-parsing library: collect every flag's entries,
stable-sort them by token position, and strip the position. -/
def clapAppToOrderedMatches (flags : List FlagSpec) : List (String × List String) :=
  let results := flags.foldl (fun acc f => acc ++ flagEntries f) []
  (sortByKey results).map (fun e => e.2)

/-- Concatenation of the images of a list, used to state flattening. -/
def flatAll (g : α → List β) : List α → List β
  | [] => []
  | x :: xs => g x ++ flatAll g xs

/-- Modelled from the spec (§4.3), for comparison with
`clapAppToOrderedMatches`: for every flag, one tuple per occurrence,
keyed by the position of the occurrence's first value slot (a flag
with N slots consumes N consecutive positions) and carrying that
occurrence's captured values; a zero-value flag contributes one tuple
per occurrence with no values. -/
def specFlagTuples (f : FlagSpec) : List (Nat × String × List String) :=
  if f.numVals = 0 then f.indices.map (fun i => (i, f.name, ([] : List String)))
  else
    (List.range (f.indices.length / f.numVals)).map
      (fun j => (f.indices.getD (j * f.numVals) 0, f.name,
        (f.values.drop (j * f.numVals)).take f.numVals))

/-- Modelled from the spec (§4.3): flatten all tuples across every
flag into one collection, stable-sort by position, strip the
position. -/
def orderedMatchesSpec (flags : List FlagSpec) : List (String × List String) :=
  (sortByKey (flatAll specFlagTuples flags)).map (fun e => e.2)

/-- Well-formedness of the occurrence data, as the flag-parsing
library guarantees it: a flag with N value slots has N indices and N
values per occurrence. -/
def FlagWF (f : FlagSpec) : Prop :=
  f.numVals = 0 ∨ ∃ k, f.indices.length = f.numVals * k ∧ f.values.length = f.numVals * k

/-- A concrete interleaving of two heterogeneous repeated flags, used
to exercise the reconstructor. -/
def exampleFlags : List FlagSpec :=
  [⟨"value", 1, [1, 4], ["id", "class"]⟩, ⟨"tab", 0, [3], []⟩]

/-- Whether `needle` occurs as a contiguous segment of `hay`; used to
state that an error message does or does not mention a name. -/
def segOf (needle : List Char) : List Char → Bool
  | [] => needle.isEmpty
  | c :: rest => needle.isPrefixOf (c :: rest) || segOf needle rest

/-- Whether an event is a tag-open event. -/
def isOpenEv : XmlEvent → Bool
  | .startElement _ _ => true
  | _ => false

/-- Whether an event is a tag-close event. -/
def isCloseEv : XmlEvent → Bool
  | .endElement _ => true
  | _ => false

/-- Balancedness of an event stream relative to a starting depth:
every tag-close has a matching open (no prefix closes more than it
has opened).  A well-formed document satisfies `depthOk 0`. -/
def depthOk : Nat → List XmlEvent → Bool
  | _, [] => true
  | d, ev :: rest =>
    match ev, d with
    | .startElement _ _, d => depthOk (d + 1) rest
    | .endElement _, 0 => false
    | .endElement _, d + 1 => depthOk d rest
    | _, d => depthOk d rest

/-- C9: the empty filter chain is the identity on every input, a
two-filter chain applies the first filter first and the second to its
result, and chain application is the left fold of the filter list over
the input. -/
theorem claim9_filter_chain_fold :
    (∀ c : Cow, Filters.apply ⟨[]⟩ c = c)
    ∧ (∀ f g : TextFilter, ∀ c : Cow,
        Filters.apply ⟨[f, g]⟩ c = Filters.apply ⟨[g]⟩ (Filters.apply ⟨[f]⟩ c))
    ∧ (∀ (fs : List TextFilter) (c : Cow),
        Filters.apply ⟨fs⟩ c = fs.foldl (fun s f => f.apply s) c) :=
  ⟨fun _ => rfl, fun _ _ _ => rfl, fun _ _ => rfl⟩

/-- C2: evaluation of the tabular (tsv) filter at the failing input.
A lone backslash makes the guard fire, yet the replacement chain never
touches backslashes, so the backslash comes through unescaped (the
code returns an owned copy with identical contents); tab, newline and
carriage return are escaped as documented, and input with none of the
four characters is returned unchanged. -/
theorem claim2_tsv_backslash_unescaped :
    TextFilter.tsvEscape.apply (Cow.borrowed "a\\b") = Cow.owned "a\\b"
    ∧ "a\\b" ≠ "a\\\\b"
    ∧ TextFilter.tsvEscape.apply (Cow.borrowed "a\tb") = Cow.owned "a\\tb"
    ∧ TextFilter.tsvEscape.apply (Cow.borrowed "a\nb") = Cow.owned "a\\nb"
    ∧ TextFilter.tsvEscape.apply (Cow.borrowed "a\rb") = Cow.owned "a\\rb"
    ∧ TextFilter.tsvEscape.apply (Cow.borrowed "x y") = Cow.borrowed "x y" :=
  ⟨by decide, by decide, by decide, by decide, by decide, by decide⟩

/-- C3 counterexample: the unix escape filter allocates even when the
input contains nothing to escape — on "foo" it returns the
newly-allocated variant, not the unchanged-reference variant. -/
theorem claim3_counterexample_unix_allocates :
    TextFilter.unixEscape.apply (Cow.borrowed "foo") = Cow.owned "foo"
    ∧ Cow.owned "foo" ≠ Cow.borrowed "foo" :=
  ⟨by decide, by decide⟩

/-- C3 amended: the identity filter is a true no-op on the
discriminated result; the tsv filter returns the
unchanged-reference-to-input variant whenever the input contains none
of the characters its guard looks for; the unix filter always returns
the newly-allocated variant. -/
theorem claim3_no_copy_amended :
    (∀ c : Cow, TextFilter.nothing.apply c = c)
    ∧ (∀ c : Cow, c.contents.data.any needsTsvEscape = false →
        TextFilter.tsvEscape.apply c = c)
    ∧ (∀ c : Cow, ∃ t, TextFilter.unixEscape.apply c = Cow.owned t) := by
  refine ⟨fun _ => rfl, fun c h => ?_, fun c => ⟨_, rfl⟩⟩
  simp [TextFilter.apply, h]

/-- C3 witness: the amended no-copy statement at a concrete
escape-free input. -/
theorem claim3_no_copy_witness :
    ("plain".data.any needsTsvEscape = false)
    ∧ TextFilter.tsvEscape.apply (Cow.borrowed "plain") = Cow.borrowed "plain" :=
  ⟨by decide, claim3_no_copy_amended.2.1 (Cow.borrowed "plain") (by decide)⟩

/-- C1 counterexample: an ancestor level exceeding the open depth does
fail immediately, but the fatal error carries the empty message — it
identifies neither the attribute nor the tag, contradicting the
claimed descriptive message. -/
theorem claim1_counterexample_empty_message :
    process [.startTag "note" [.ParentAttribute 2 "id" ⟨[]⟩]]
        [.startDocument, .startElement "notes" [("id", "42")], .startElement "note" [("id", "7")]]
      = ("", some (.fatal ""))
    ∧ segOf "id".data "".data = false
    ∧ segOf "note".data "".data = false :=
  ⟨by decide, by decide, by decide⟩

/-- C1 amended: for both ancestor-attribute variants, a level
exceeding the number of currently open ancestors at the moment the
tag-open actions run makes execution fail immediately with a fatal
error whose message is empty (so it does not identify the attribute or
tag), independently of the current element's attributes, of whether
the named attribute would have existed on any ancestor, and of the
default value. -/
theorem claim1_underflow_fatal_amended :
    (∀ (level : Nat) (attr : String) (flt : Filters) (attributes : List Attr)
        (tag : String) (st : PState), st.parentAttrs.length < level →
        runStartTagAction attributes tag st (.ParentAttribute level attr flt)
          = (st, some (.fatal "")))
    ∧ (∀ (level : Nat) (attr dflt : String) (flt : Filters) (attributes : List Attr)
        (tag : String) (st : PState), st.parentAttrs.length < level →
        runStartTagAction attributes tag st (.ParentAttributeWithDefault level attr dflt flt)
          = (st, some (.fatal ""))) := by
  constructor
  · intro level attr flt attributes tag st h
    simp [runStartTagAction, h]
  · intro level attr dflt flt attributes tag st h
    simp [runStartTagAction, h]

/-- C1 witness: the amended underflow statement at level 1 with an
empty ancestor stack, in both variants. -/
theorem claim1_underflow_witness :
    ((⟨"", [], []⟩ : PState).parentAttrs.length < 1)
    ∧ runStartTagAction [("id", "7")] "t" ⟨"", [], []⟩ (.ParentAttribute 1 "id" ⟨[]⟩)
        = (⟨"", [], []⟩, some (.fatal ""))
    ∧ runStartTagAction [("id", "7")] "t" ⟨"", [], []⟩ (.ParentAttributeWithDefault 1 "id" "D" ⟨[]⟩)
        = (⟨"", [], []⟩, some (.fatal "")) :=
  ⟨by decide,
   claim1_underflow_fatal_amended.1 1 "id" ⟨[]⟩ [("id", "7")] "t" ⟨"", [], []⟩ (by decide),
   claim1_underflow_fatal_amended.2 1 "id" "D" ⟨[]⟩ [("id", "7")] "t" ⟨"", [], []⟩ (by decide)⟩

/-- C4: specifier parsing strips leading ancestor markers (each one
incrementing the level) and current markers (no effect), the five
spec examples parse as claimed, an unknown filter name fails
compilation naming the filter, and every name outside the closed set
is rejected by the filter parser with that message. -/
theorem claim4_specifier_parsing :
    (∀ s : List Char, stripLevels ('.' :: '.' :: '/' :: s)
        = ((stripLevels s).1 + 1, (stripLevels s).2))
    ∧ (∀ s : List Char, stripLevels ('.' :: '/' :: s) = stripLevels s)
    ∧ parseToInstructions [("startelement", ["t"]), ("value", ["id"])]
        = .ok [.startTag "t" [.Attribute "id" ⟨[]⟩]]
    ∧ parseToInstructions [("startelement", ["t"]), ("value", ["./id"])]
        = .ok [.startTag "t" [.Attribute "id" ⟨[]⟩]]
    ∧ parseToInstructions [("startelement", ["t"]), ("value", ["../id"])]
        = .ok [.startTag "t" [.ParentAttribute 1 "id" ⟨[]⟩]]
    ∧ parseToInstructions [("startelement", ["t"]), ("value", ["../../id"])]
        = .ok [.startTag "t" [.ParentAttribute 2 "id" ⟨[]⟩]]
    ∧ parseToInstructions [("startelement", ["t"]), ("value", ["id!tsv"])]
        = .ok [.startTag "t" [.Attribute "id" ⟨[.tsvEscape]⟩]]
    ∧ parseToInstructions [("startelement", ["t"]), ("value", ["id!foo"])]
        = .error "Unknown filter foo"
    ∧ (∀ x : String, x ≠ "nothing" → x ≠ "none" → x ≠ "unix" → x ≠ "tsv" →
        TextFilter.fromStr x = .error ("Unknown filter " ++ x)) := by
  refine ⟨fun s => by simp [stripLevels], fun s => by simp [stripLevels],
    rfl, rfl, rfl, rfl, rfl, rfl, ?_⟩
  intro x h1 h2 h3 h4
  simp [TextFilter.fromStr, h1, h2, h3, h4]

/-- C4 witness: the closed-set conjunct at the concrete unknown name
"foo". -/
theorem claim4_specifier_witness :
    TextFilter.fromStr "foo" = .error ("Unknown filter " ++ "foo") :=
  claim4_specifier_parsing.2.2.2.2.2.2.2.2 "foo" (by decide) (by decide) (by decide) (by decide)

/-- A name absent from every attribute makes the shared first-match
lookup return `none`. -/
theorem firstAttrValue_eq_none (attr : String) :
    ∀ attributes : List Attr, (∀ p ∈ attributes, p.1 ≠ attr) →
      firstAttrValue attributes attr = none := by
  intro attributes h
  induction attributes with
  | nil => rfl
  | cons p rest ih =>
    have hp : p.1 ≠ attr := h p (by simp)
    have hr := ih (fun q hq => h q (by simp [hq]))
    simp only [firstAttrValue, List.filterMap_cons, if_neg hp] at hr ⊢
    exact hr

/-- The shared first-match lookup returns the value of the first
attribute carrying the requested name. -/
theorem firstAttrValue_found (attr v : String) :
    ∀ (pre post : List Attr), (∀ p ∈ pre, p.1 ≠ attr) →
      firstAttrValue (pre ++ (attr, v) :: post) attr = some v := by
  intro pre post h
  induction pre with
  | nil => simp [firstAttrValue, List.filterMap_cons]
  | cons p rest ih =>
    have hp : p.1 ≠ attr := h p (by simp)
    have hr := ih (fun q hq => h q (by simp [hq]))
    simp only [List.cons_append, firstAttrValue, List.filterMap_cons, if_neg hp] at hr ⊢
    exact hr

/-- C5: a required direct-attribute lookup on an element without the
requested attribute fails with the error naming the attribute, the
tag, and the attribute names actually present; and in a full run the
failure stops the run, so the output is exactly what was written
before the failure point. -/
theorem claim5_required_attr_missing :
    (∀ (attributes : List Attr) (attr tag : String),
        (∀ p ∈ attributes, p.1 ≠ attr) →
        getAttr attributes attr tag
          = .error ("No attribute " ++ attr ++ " found for element " ++ tag
              ++ ". Attributes: " ++ joinComma (attributes.map (fun p => p.1))))
    ∧ process [.startTag "note" [.Attribute "id" ⟨[]⟩], .endTag "note" [.RawString "\n"]]
        [.startDocument, .startElement "notes" [], .startElement "note" [("id", "1")],
         .other, .endElement "note", .startElement "note" [("class", "x")], .other,
         .endElement "note", .endElement "notes", .endDocument]
      = ("1\n", some (.fatal "No attribute id found for element note. Attributes: class")) := by
  constructor
  · intro attributes attr tag h
    simp [getAttr, firstAttrValue_eq_none attr attributes h]
  · decide

/-- C5 witness: the message conjunct at a concrete element that lacks
the requested attribute. -/
theorem claim5_required_attr_witness :
    getAttr [("class", "x")] "id" "note"
      = .error ("No attribute " ++ "id" ++ " found for element " ++ "note"
          ++ ". Attributes: " ++ joinComma ([("class", "x")].map (fun p : Attr => p.1))) :=
  claim5_required_attr_missing.1 [("class", "x")] "id" "note" (by decide)

/-- C6: a direct attribute-with-default action uses the attribute's
value when it is present and the literal default when it is absent,
applying the filter chain to whichever value was chosen, and the
end-to-end example produces exactly "1\nNOID\n". -/
theorem claim6_attribute_with_default :
    (∀ (pre post : List Attr) (attr v dflt : String) (flt : Filters)
        (tag : String) (st : PState),
        (∀ p ∈ pre, p.1 ≠ attr) →
        runStartTagAction (pre ++ (attr, v) :: post) tag st (.AttributeWithDefault attr dflt flt)
          = ({ st with out := st.out ++ (flt.apply (.borrowed v)).contents }, none))
    ∧ (∀ (attributes : List Attr) (attr dflt : String) (flt : Filters)
        (tag : String) (st : PState),
        (∀ p ∈ attributes, p.1 ≠ attr) →
        runStartTagAction attributes tag st (.AttributeWithDefault attr dflt flt)
          = ({ st with out := st.out ++ (flt.apply (.borrowed dflt)).contents }, none))
    ∧ process [.startTag "note" [.AttributeWithDefault "id" "NOID" ⟨[]⟩],
               .endTag "note" [.RawString "\n"]]
        [.startDocument, .startElement "notes" [], .startElement "note" [("id", "1")], .other,
         .endElement "note", .startElement "note" [], .other, .endElement "note",
         .endElement "notes", .endDocument]
      = ("1\nNOID\n", none) := by
  refine ⟨?_, ?_, by decide⟩
  · intro pre post attr v dflt flt tag st h
    simp [runStartTagAction, firstAttrValue_found attr v pre post h]
  · intro attributes attr dflt flt tag st h
    simp [runStartTagAction, firstAttrValue_eq_none attr attributes h]

/-- C6 witness: both the present-attribute and the absent-attribute
conjuncts at concrete inputs. -/
theorem claim6_attribute_with_default_witness :
    runStartTagAction [("id", "1")] "note" ⟨"", [], []⟩
        (.AttributeWithDefault "id" "NOID" ⟨[]⟩)
      = (⟨"" ++ (Filters.apply ⟨[]⟩ (.borrowed "1")).contents, [], []⟩, none)
    ∧ runStartTagAction [("class", "x")] "note" ⟨"", [], []⟩
        (.AttributeWithDefault "id" "NOID" ⟨[]⟩)
      = (⟨"" ++ (Filters.apply ⟨[]⟩ (.borrowed "NOID")).contents, [], []⟩, none) :=
  ⟨claim6_attribute_with_default.1 [] [] "id" "1" "NOID" ⟨[]⟩ "note" ⟨"", [], []⟩ (by decide),
   claim6_attribute_with_default.2.1 [("class", "x")] "id" "NOID" ⟨[]⟩ "note" ⟨"", [], []⟩
     (by decide)⟩

/-- A successful step lets the fold continue from the new state. -/
theorem foldStop_cons_none {α : Type} (step : PState → α → PState × Option Failure)
    (st st' : PState) (a : α) (l : List α) (h : step st a = (st', none)) :
    foldStop step st (a :: l) = foldStop step st' l := by
  simp [foldStop, h]

/-- A failing step stops the fold at once. -/
theorem foldStop_cons_fail {α : Type} (step : PState → α → PState × Option Failure)
    (st st' : PState) (a : α) (l : List α) (f : Failure) (h : step st a = (st', some f)) :
    foldStop step st (a :: l) = (st', some f) := by
  simp [foldStop, h]

/-- Raw-only action lists run to completion in the literal-text
interpreter of the start-document, end-tag and end-document arms. -/
theorem foldStop_raw_all :
    ∀ (acts : List Action) (st : PState), (∀ a ∈ acts, a.isRawString = true) →
      (foldStop runRawAction st acts).2 = none := by
  intro acts
  induction acts with
  | nil => intro st _; rfl
  | cons a rest ih =>
    intro st h
    have ha := h a (by simp)
    cases a with
    | RawString s =>
      have hs : runRawAction st (.RawString s) = ({ st with out := st.out ++ s }, none) := rfl
      rw [foldStop_cons_none _ _ _ _ rest hs]
      exact ih _ (fun b hb => h b (by simp [hb]))
    | Attribute attr flt => simp [Action.isRawString] at ha
    | AttributeWithDefault attr dflt flt => simp [Action.isRawString] at ha
    | ParentAttribute l attr flt => simp [Action.isRawString] at ha
    | ParentAttributeWithDefault l attr dflt flt => simp [Action.isRawString] at ha

/-- An action list containing any non-literal action makes the
literal-text interpreter hit the `todo!()` arm. -/
theorem foldStop_raw_panic :
    ∀ (acts : List Action) (st : PState), (∃ a ∈ acts, a.isRawString = false) →
      (foldStop runRawAction st acts).2 = some (.panicked "not yet implemented") := by
  intro acts
  induction acts with
  | nil => intro st h; simp at h
  | cons a rest ih =>
    intro st h
    cases a with
    | RawString s =>
      have hs : runRawAction st (.RawString s) = ({ st with out := st.out ++ s }, none) := rfl
      rw [foldStop_cons_none _ _ _ _ rest hs]
      apply ih
      obtain ⟨b, hb, hbr⟩ := h
      rcases List.mem_cons.mp hb with hba | hbm
      · subst hba; simp [Action.isRawString] at hbr
      · exact ⟨b, hbm, hbr⟩
    | Attribute attr flt =>
      have hs : runRawAction st (.Attribute attr flt)
          = (st, some (.panicked "not yet implemented")) := rfl
      rw [foldStop_cons_fail _ _ _ _ rest _ hs]
    | AttributeWithDefault attr dflt flt =>
      have hs : runRawAction st (.AttributeWithDefault attr dflt flt)
          = (st, some (.panicked "not yet implemented")) := rfl
      rw [foldStop_cons_fail _ _ _ _ rest _ hs]
    | ParentAttribute l attr flt =>
      have hs : runRawAction st (.ParentAttribute l attr flt)
          = (st, some (.panicked "not yet implemented")) := rfl
      rw [foldStop_cons_fail _ _ _ _ rest _ hs]
    | ParentAttributeWithDefault l attr dflt flt =>
      have hs : runRawAction st (.ParentAttributeWithDefault l attr dflt flt)
          = (st, some (.panicked "not yet implemented")) := rfl
      rw [foldStop_cons_fail _ _ _ _ rest _ hs]

/-- The start-document handler is total when every start-document
instruction holds only literal-text actions. -/
theorem startDocHandler_none :
    ∀ (instrs : List Instruction) (st : PState),
      (∀ acts, Instruction.startDocument acts ∈ instrs → ∀ a ∈ acts, a.isRawString = true) →
      (foldStop stepInstrStartDoc st instrs).2 = none := by
  intro instrs
  induction instrs with
  | nil => intro st _; rfl
  | cons i rest ih =>
    intro st h
    cases i with
    | startDocument acts =>
      have hall := h acts (by simp)
      have h2 := foldStop_raw_all acts st hall
      rcases hstep : foldStop runRawAction st acts with ⟨st', f2⟩
      rw [hstep] at h2; simp at h2; subst h2
      have hs : stepInstrStartDoc st (.startDocument acts) = (st', none) := by
        simp [stepInstrStartDoc, hstep]
      rw [foldStop_cons_none _ _ _ _ _ hs]
      exact ih _ (fun acts2 hm => h acts2 (by simp [hm]))
    | startTag t acts =>
      have hs : stepInstrStartDoc st (.startTag t acts) = (st, none) := rfl
      rw [foldStop_cons_none _ _ _ _ rest hs]
      exact ih _ (fun acts2 hm => h acts2 (by simp [hm]))
    | endTag t acts =>
      have hs : stepInstrStartDoc st (.endTag t acts) = (st, none) := rfl
      rw [foldStop_cons_none _ _ _ _ rest hs]
      exact ih _ (fun acts2 hm => h acts2 (by simp [hm]))
    | endDocument acts =>
      have hs : stepInstrStartDoc st (.endDocument acts) = (st, none) := rfl
      rw [foldStop_cons_none _ _ _ _ rest hs]
      exact ih _ (fun acts2 hm => h acts2 (by simp [hm]))

/-- The start-document handler panics as soon as some start-document
instruction holds a non-literal action. -/
theorem startDocHandler_panic :
    ∀ (instrs : List Instruction) (st : PState),
      (∃ acts, Instruction.startDocument acts ∈ instrs ∧ ∃ a ∈ acts, a.isRawString = false) →
      (foldStop stepInstrStartDoc st instrs).2 = some (.panicked "not yet implemented") := by
  intro instrs
  induction instrs with
  | nil => intro st h; obtain ⟨acts, hm, _⟩ := h; simp at hm
  | cons i rest ih =>
    intro st h
    cases i with
    | startDocument acts =>
      by_cases hx : ∃ a ∈ acts, a.isRawString = false
      · have h2 := foldStop_raw_panic acts st hx
        rcases hstep : foldStop runRawAction st acts with ⟨st', f2⟩
        rw [hstep] at h2; simp at h2; subst h2
        have hs : stepInstrStartDoc st (.startDocument acts)
            = (st', some (.panicked "not yet implemented")) := by
          simp [stepInstrStartDoc, hstep]
        rw [foldStop_cons_fail _ _ _ _ _ _ hs]
      · have hall : ∀ a ∈ acts, a.isRawString = true := by
          intro a ha
          by_contra hc
          exact hx ⟨a, ha, by simpa using hc⟩
        have h2 := foldStop_raw_all acts st hall
        rcases hstep : foldStop runRawAction st acts with ⟨st', f2⟩
        rw [hstep] at h2; simp at h2; subst h2
        have hs : stepInstrStartDoc st (.startDocument acts) = (st', none) := by
          simp [stepInstrStartDoc, hstep]
        rw [foldStop_cons_none _ _ _ _ _ hs]
        apply ih
        obtain ⟨acts2, hm, hex⟩ := h
        rcases List.mem_cons.mp hm with heq | hmr
        · exfalso
          have hae : acts2 = acts := by injection heq
          subst hae
          obtain ⟨a, ha, har⟩ := hex
          rw [hall a ha] at har
          simp at har
        · exact ⟨acts2, hmr, hex⟩
    | startTag t acts =>
      have hs : stepInstrStartDoc st (.startTag t acts) = (st, none) := rfl
      rw [foldStop_cons_none _ _ _ _ rest hs]
      apply ih
      obtain ⟨acts2, hm, hex⟩ := h
      rcases List.mem_cons.mp hm with heq | hmr
      · exact absurd heq (by simp)
      · exact ⟨acts2, hmr, hex⟩
    | endTag t acts =>
      have hs : stepInstrStartDoc st (.endTag t acts) = (st, none) := rfl
      rw [foldStop_cons_none _ _ _ _ rest hs]
      apply ih
      obtain ⟨acts2, hm, hex⟩ := h
      rcases List.mem_cons.mp hm with heq | hmr
      · exact absurd heq (by simp)
      · exact ⟨acts2, hmr, hex⟩
    | endDocument acts =>
      have hs : stepInstrStartDoc st (.endDocument acts) = (st, none) := rfl
      rw [foldStop_cons_none _ _ _ _ rest hs]
      apply ih
      obtain ⟨acts2, hm, hex⟩ := h
      rcases List.mem_cons.mp hm with heq | hmr
      · exact absurd heq (by simp)
      · exact ⟨acts2, hmr, hex⟩

/-- The end-tag handler is total when every end-tag instruction for
the fired tag holds only literal-text actions. -/
theorem endElemHandler_none :
    ∀ (instrs : List Instruction) (n : String) (st : PState),
      (∀ acts, Instruction.endTag n acts ∈ instrs → ∀ a ∈ acts, a.isRawString = true) →
      (foldStop (stepInstrEndElem n) st instrs).2 = none := by
  intro instrs n
  induction instrs with
  | nil => intro st _; rfl
  | cons i rest ih =>
    intro st h
    cases i with
    | endTag t acts =>
      by_cases ht : t = n
      · subst ht
        have hall := h acts (by simp)
        have h2 := foldStop_raw_all acts st hall
        rcases hstep : foldStop runRawAction st acts with ⟨st', f2⟩
        rw [hstep] at h2; simp at h2; subst h2
        have hs : stepInstrEndElem t st (.endTag t acts) = (st', none) := by
          simp [stepInstrEndElem, hstep]
        rw [foldStop_cons_none _ _ _ _ rest hs]
        exact ih _ (fun acts2 hm => h acts2 (by simp [hm]))
      · have hs : stepInstrEndElem n st (.endTag t acts) = (st, none) := by
          simp [stepInstrEndElem, ht]
        rw [foldStop_cons_none _ _ _ _ rest hs]
        exact ih _ (fun acts2 hm => h acts2 (by simp [hm]))
    | startDocument acts =>
      have hs : stepInstrEndElem n st (.startDocument acts) = (st, none) := rfl
      rw [foldStop_cons_none _ _ _ _ rest hs]
      exact ih _ (fun acts2 hm => h acts2 (by simp [hm]))
    | startTag t acts =>
      have hs : stepInstrEndElem n st (.startTag t acts) = (st, none) := rfl
      rw [foldStop_cons_none _ _ _ _ rest hs]
      exact ih _ (fun acts2 hm => h acts2 (by simp [hm]))
    | endDocument acts =>
      have hs : stepInstrEndElem n st (.endDocument acts) = (st, none) := rfl
      rw [foldStop_cons_none _ _ _ _ rest hs]
      exact ih _ (fun acts2 hm => h acts2 (by simp [hm]))

/-- The end-tag handler panics as soon as some end-tag instruction for
the fired tag holds a non-literal action. -/
theorem endElemHandler_panic :
    ∀ (instrs : List Instruction) (n : String) (st : PState),
      (∃ acts, Instruction.endTag n acts ∈ instrs ∧ ∃ a ∈ acts, a.isRawString = false) →
      (foldStop (stepInstrEndElem n) st instrs).2 = some (.panicked "not yet implemented") := by
  intro instrs n
  induction instrs with
  | nil => intro st h; obtain ⟨acts, hm, _⟩ := h; simp at hm
  | cons i rest ih =>
    intro st h
    cases i with
    | endTag t acts =>
      by_cases ht : t = n
      · subst ht
        by_cases hx : ∃ a ∈ acts, a.isRawString = false
        · have h2 := foldStop_raw_panic acts st hx
          rcases hstep : foldStop runRawAction st acts with ⟨st', f2⟩
          rw [hstep] at h2; simp at h2; subst h2
          have hs : stepInstrEndElem t st (.endTag t acts)
              = (st', some (.panicked "not yet implemented")) := by
            simp [stepInstrEndElem, hstep]
          rw [foldStop_cons_fail _ _ _ _ rest _ hs]
        · have hall : ∀ a ∈ acts, a.isRawString = true := by
            intro a ha
            by_contra hc
            exact hx ⟨a, ha, by simpa using hc⟩
          have h2 := foldStop_raw_all acts st hall
          rcases hstep : foldStop runRawAction st acts with ⟨st', f2⟩
          rw [hstep] at h2; simp at h2; subst h2
          have hs : stepInstrEndElem t st (.endTag t acts) = (st', none) := by
            simp [stepInstrEndElem, hstep]
          rw [foldStop_cons_none _ _ _ _ rest hs]
          apply ih
          obtain ⟨acts2, hm, hex⟩ := h
          rcases List.mem_cons.mp hm with heq | hmr
          · exfalso
            have hae : acts2 = acts := by
              injection heq with h1 h2
            subst hae
            obtain ⟨a, ha, har⟩ := hex
            rw [hall a ha] at har
            simp at har
          · exact ⟨acts2, hmr, hex⟩
      · have hs : stepInstrEndElem n st (.endTag t acts) = (st, none) := by
          simp [stepInstrEndElem, ht]
        rw [foldStop_cons_none _ _ _ _ rest hs]
        apply ih
        obtain ⟨acts2, hm, hex⟩ := h
        rcases List.mem_cons.mp hm with heq | hmr
        · exfalso
          injection heq with h1 h2
          exact ht h1.symm
        · exact ⟨acts2, hmr, hex⟩
    | startDocument acts =>
      have hs : stepInstrEndElem n st (.startDocument acts) = (st, none) := rfl
      rw [foldStop_cons_none _ _ _ _ rest hs]
      apply ih
      obtain ⟨acts2, hm, hex⟩ := h
      rcases List.mem_cons.mp hm with heq | hmr
      · exact absurd heq (by simp)
      · exact ⟨acts2, hmr, hex⟩
    | startTag t acts =>
      have hs : stepInstrEndElem n st (.startTag t acts) = (st, none) := rfl
      rw [foldStop_cons_none _ _ _ _ rest hs]
      apply ih
      obtain ⟨acts2, hm, hex⟩ := h
      rcases List.mem_cons.mp hm with heq | hmr
      · exact absurd heq (by simp)
      · exact ⟨acts2, hmr, hex⟩
    | endDocument acts =>
      have hs : stepInstrEndElem n st (.endDocument acts) = (st, none) := rfl
      rw [foldStop_cons_none _ _ _ _ rest hs]
      apply ih
      obtain ⟨acts2, hm, hex⟩ := h
      rcases List.mem_cons.mp hm with heq | hmr
      · exact absurd heq (by simp)
      · exact ⟨acts2, hmr, hex⟩

/-- The end-document handler is total when every end-document
instruction holds only literal-text actions. -/
theorem endDocHandler_none :
    ∀ (instrs : List Instruction) (st : PState),
      (∀ acts, Instruction.endDocument acts ∈ instrs → ∀ a ∈ acts, a.isRawString = true) →
      (foldStop stepInstrEndDoc st instrs).2 = none := by
  intro instrs
  induction instrs with
  | nil => intro st _; rfl
  | cons i rest ih =>
    intro st h
    cases i with
    | endDocument acts =>
      have hall := h acts (by simp)
      have h2 := foldStop_raw_all acts st hall
      rcases hstep : foldStop runRawAction st acts with ⟨st', f2⟩
      rw [hstep] at h2; simp at h2; subst h2
      have hs : stepInstrEndDoc st (.endDocument acts) = (st', none) := by
        simp [stepInstrEndDoc, hstep]
      rw [foldStop_cons_none _ _ _ _ rest hs]
      exact ih _ (fun acts2 hm => h acts2 (by simp [hm]))
    | startDocument acts =>
      have hs : stepInstrEndDoc st (.startDocument acts) = (st, none) := rfl
      rw [foldStop_cons_none _ _ _ _ rest hs]
      exact ih _ (fun acts2 hm => h acts2 (by simp [hm]))
    | startTag t acts =>
      have hs : stepInstrEndDoc st (.startTag t acts) = (st, none) := rfl
      rw [foldStop_cons_none _ _ _ _ rest hs]
      exact ih _ (fun acts2 hm => h acts2 (by simp [hm]))
    | endTag t acts =>
      have hs : stepInstrEndDoc st (.endTag t acts) = (st, none) := rfl
      rw [foldStop_cons_none _ _ _ _ rest hs]
      exact ih _ (fun acts2 hm => h acts2 (by simp [hm]))

/-- The end-document handler panics as soon as some end-document
instruction holds a non-literal action. -/
theorem endDocHandler_panic :
    ∀ (instrs : List Instruction) (st : PState),
      (∃ acts, Instruction.endDocument acts ∈ instrs ∧ ∃ a ∈ acts, a.isRawString = false) →
      (foldStop stepInstrEndDoc st instrs).2 = some (.panicked "not yet implemented") := by
  intro instrs
  induction instrs with
  | nil => intro st h; obtain ⟨acts, hm, _⟩ := h; simp at hm
  | cons i rest ih =>
    intro st h
    cases i with
    | endDocument acts =>
      by_cases hx : ∃ a ∈ acts, a.isRawString = false
      · have h2 := foldStop_raw_panic acts st hx
        rcases hstep : foldStop runRawAction st acts with ⟨st', f2⟩
        rw [hstep] at h2; simp at h2; subst h2
        have hs : stepInstrEndDoc st (.endDocument acts)
            = (st', some (.panicked "not yet implemented")) := by
          simp [stepInstrEndDoc, hstep]
        rw [foldStop_cons_fail _ _ _ _ rest _ hs]
      · have hall : ∀ a ∈ acts, a.isRawString = true := by
          intro a ha
          by_contra hc
          exact hx ⟨a, ha, by simpa using hc⟩
        have h2 := foldStop_raw_all acts st hall
        rcases hstep : foldStop runRawAction st acts with ⟨st', f2⟩
        rw [hstep] at h2; simp at h2; subst h2
        have hs : stepInstrEndDoc st (.endDocument acts) = (st', none) := by
          simp [stepInstrEndDoc, hstep]
        rw [foldStop_cons_none _ _ _ _ rest hs]
        apply ih
        obtain ⟨acts2, hm, hex⟩ := h
        rcases List.mem_cons.mp hm with heq | hmr
        · exfalso
          have hae : acts2 = acts := by injection heq
          subst hae
          obtain ⟨a, ha, har⟩ := hex
          rw [hall a ha] at har
          simp at har
        · exact ⟨acts2, hmr, hex⟩
    | startDocument acts =>
      have hs : stepInstrEndDoc st (.startDocument acts) = (st, none) := rfl
      rw [foldStop_cons_none _ _ _ _ rest hs]
      apply ih
      obtain ⟨acts2, hm, hex⟩ := h
      rcases List.mem_cons.mp hm with heq | hmr
      · exact absurd heq (by simp)
      · exact ⟨acts2, hmr, hex⟩
    | startTag t acts =>
      have hs : stepInstrEndDoc st (.startTag t acts) = (st, none) := rfl
      rw [foldStop_cons_none _ _ _ _ rest hs]
      apply ih
      obtain ⟨acts2, hm, hex⟩ := h
      rcases List.mem_cons.mp hm with heq | hmr
      · exact absurd heq (by simp)
      · exact ⟨acts2, hmr, hex⟩
    | endTag t acts =>
      have hs : stepInstrEndDoc st (.endTag t acts) = (st, none) := rfl
      rw [foldStop_cons_none _ _ _ _ rest hs]
      apply ih
      obtain ⟨acts2, hm, hex⟩ := h
      rcases List.mem_cons.mp hm with heq | hmr
      · exact absurd heq (by simp)
      · exact ⟨acts2, hmr, hex⟩

/-- C10: the compiler accepts both attribute-lookup directives
(emit-value and emit-value-with-default) in document-start, tag-close
and document-end scopes without error; each of the three
corresponding executor handlers returns no failure when its matching
instructions hold only literal-text actions, but reaches the
`todo!()` arm (a panic, not a returned error) whenever a matching
instruction holds any other action kind and the event fires; a full
run on such a program ends in the panic. -/
theorem claim10_attr_scopes_panic :
    parseToInstructions [("startdoc", []), ("value", ["id"])]
      = .ok [.startDocument [.Attribute "id" ⟨[]⟩]]
    ∧ parseToInstructions [("startdoc", []), ("value_with_default", ["id", "D"])]
      = .ok [.startDocument [.AttributeWithDefault "id" "D" ⟨[]⟩]]
    ∧ parseToInstructions [("endelement", ["note"]), ("value", ["id"])]
      = .ok [.endTag "note" [.Attribute "id" ⟨[]⟩]]
    ∧ parseToInstructions [("endelement", ["note"]), ("value_with_default", ["id", "D"])]
      = .ok [.endTag "note" [.AttributeWithDefault "id" "D" ⟨[]⟩]]
    ∧ parseToInstructions [("enddoc", []), ("value", ["id"])]
      = .ok [.endDocument [.Attribute "id" ⟨[]⟩]]
    ∧ parseToInstructions [("enddoc", []), ("value_with_default", ["id", "D"])]
      = .ok [.endDocument [.AttributeWithDefault "id" "D" ⟨[]⟩]]
    ∧ (∀ (instrs : List Instruction) (st : PState),
        (∀ acts, Instruction.startDocument acts ∈ instrs → ∀ a ∈ acts, a.isRawString = true) →
        (foldStop stepInstrStartDoc st instrs).2 = none)
    ∧ (∀ (instrs : List Instruction) (st : PState),
        (∃ acts, Instruction.startDocument acts ∈ instrs ∧ ∃ a ∈ acts, a.isRawString = false) →
        (foldStop stepInstrStartDoc st instrs).2 = some (.panicked "not yet implemented"))
    ∧ (∀ (instrs : List Instruction) (n : String) (st : PState),
        (∀ acts, Instruction.endTag n acts ∈ instrs → ∀ a ∈ acts, a.isRawString = true) →
        (foldStop (stepInstrEndElem n) st instrs).2 = none)
    ∧ (∀ (instrs : List Instruction) (n : String) (st : PState),
        (∃ acts, Instruction.endTag n acts ∈ instrs ∧ ∃ a ∈ acts, a.isRawString = false) →
        (foldStop (stepInstrEndElem n) st instrs).2 = some (.panicked "not yet implemented"))
    ∧ (∀ (instrs : List Instruction) (st : PState),
        (∀ acts, Instruction.endDocument acts ∈ instrs → ∀ a ∈ acts, a.isRawString = true) →
        (foldStop stepInstrEndDoc st instrs).2 = none)
    ∧ (∀ (instrs : List Instruction) (st : PState),
        (∃ acts, Instruction.endDocument acts ∈ instrs ∧ ∃ a ∈ acts, a.isRawString = false) →
        (foldStop stepInstrEndDoc st instrs).2 = some (.panicked "not yet implemented"))
    ∧ process [.startDocument [.Attribute "id" ⟨[]⟩]] [.startDocument]
      = ("", some (.panicked "not yet implemented")) :=
  ⟨rfl, rfl, rfl, rfl, rfl, rfl, startDocHandler_none, startDocHandler_panic,
   endElemHandler_none, endElemHandler_panic, endDocHandler_none, endDocHandler_panic,
   by decide⟩

/-- C10 witness: the start-document panic conjunct at a concrete
instruction list holding one attribute action. -/
theorem claim10_attr_scopes_witness :
    (foldStop stepInstrStartDoc ⟨"", [], []⟩ [.startDocument [.Attribute "id" ⟨[]⟩]]).2
      = some (.panicked "not yet implemented") :=
  claim10_attr_scopes_panic.2.2.2.2.2.2.2.1 [.startDocument [.Attribute "id" ⟨[]⟩]] ⟨"", [], []⟩
    ⟨[.Attribute "id" ⟨[]⟩], by simp, .Attribute "id" ⟨[]⟩, by simp, rfl⟩

/-- Start-tag actions write output only; they never touch the
ancestor stacks. -/
theorem runStartTagAction_stacks (attributes : List Attr) (tag : String)
    (st : PState) (a : Action) :
    (runStartTagAction attributes tag st a).1.parentAttrs = st.parentAttrs
    ∧ (runStartTagAction attributes tag st a).1.parentTags = st.parentTags := by
  cases a with
  | RawString s => exact ⟨rfl, rfl⟩
  | Attribute attr flt =>
    cases hg : getAttr attributes attr tag with
    | error e => simp [runStartTagAction, hg]
    | ok v => simp [runStartTagAction, hg]
  | AttributeWithDefault attr dflt flt => exact ⟨rfl, rfl⟩
  | ParentAttribute level attr flt =>
    simp only [runStartTagAction]
    repeat' split
    all_goals exact ⟨rfl, rfl⟩
  | ParentAttributeWithDefault level attr dflt flt =>
    simp only [runStartTagAction]
    repeat' split
    all_goals exact ⟨rfl, rfl⟩

/-- Literal-text actions never touch the ancestor stacks. -/
theorem runRawAction_stacks (st : PState) (a : Action) :
    (runRawAction st a).1.parentAttrs = st.parentAttrs
    ∧ (runRawAction st a).1.parentTags = st.parentTags := by
  cases a <;> exact ⟨rfl, rfl⟩

/-- A fold of stack-preserving steps preserves the ancestor stacks. -/
theorem foldStop_stacks {α : Type} (step : PState → α → PState × Option Failure)
    (hstep : ∀ (st : PState) (a : α),
      (step st a).1.parentAttrs = st.parentAttrs ∧ (step st a).1.parentTags = st.parentTags) :
    ∀ (l : List α) (st : PState),
      (foldStop step st l).1.parentAttrs = st.parentAttrs
      ∧ (foldStop step st l).1.parentTags = st.parentTags := by
  intro l
  induction l with
  | nil => intro st; exact ⟨rfl, rfl⟩
  | cons a rest ih =>
    intro st
    rcases hstep2 : step st a with ⟨st', f2⟩
    have hp := hstep st a
    rw [hstep2] at hp
    cases f2 with
    | none =>
      rw [foldStop_cons_none _ _ _ _ rest hstep2]
      exact ⟨(ih st').1.trans hp.1, (ih st').2.trans hp.2⟩
    | some f =>
      rw [foldStop_cons_fail _ _ _ _ rest _ hstep2]
      exact hp

/-- The start-document per-instruction step preserves the stacks. -/
theorem stepInstrStartDoc_stacks (st : PState) (i : Instruction) :
    (stepInstrStartDoc st i).1.parentAttrs = st.parentAttrs
    ∧ (stepInstrStartDoc st i).1.parentTags = st.parentTags := by
  cases i with
  | startDocument acts => exact foldStop_stacks runRawAction runRawAction_stacks acts st
  | startTag t acts => exact ⟨rfl, rfl⟩
  | endTag t acts => exact ⟨rfl, rfl⟩
  | endDocument acts => exact ⟨rfl, rfl⟩

/-- The start-element per-instruction step preserves the stacks (the
push happens after the instruction loop, not inside it). -/
theorem stepInstrStartElem_stacks (n : String) (attributes : List Attr)
    (st : PState) (i : Instruction) :
    (stepInstrStartElem n attributes st i).1.parentAttrs = st.parentAttrs
    ∧ (stepInstrStartElem n attributes st i).1.parentTags = st.parentTags := by
  cases i with
  | startTag t acts =>
    simp only [stepInstrStartElem]
    split
    · exact foldStop_stacks _ (fun st2 a => runStartTagAction_stacks attributes t st2 a) acts st
    · exact ⟨rfl, rfl⟩
  | startDocument acts => exact ⟨rfl, rfl⟩
  | endTag t acts => exact ⟨rfl, rfl⟩
  | endDocument acts => exact ⟨rfl, rfl⟩

/-- The end-element per-instruction step preserves the stacks (the
pop happens after the instruction loop, not inside it). -/
theorem stepInstrEndElem_stacks (n : String) (st : PState) (i : Instruction) :
    (stepInstrEndElem n st i).1.parentAttrs = st.parentAttrs
    ∧ (stepInstrEndElem n st i).1.parentTags = st.parentTags := by
  cases i with
  | endTag t acts =>
    simp only [stepInstrEndElem]
    split
    · exact foldStop_stacks runRawAction runRawAction_stacks acts st
    · exact ⟨rfl, rfl⟩
  | startDocument acts => exact ⟨rfl, rfl⟩
  | startTag t acts => exact ⟨rfl, rfl⟩
  | endDocument acts => exact ⟨rfl, rfl⟩

/-- The end-document per-instruction step preserves the stacks. -/
theorem stepInstrEndDoc_stacks (st : PState) (i : Instruction) :
    (stepInstrEndDoc st i).1.parentAttrs = st.parentAttrs
    ∧ (stepInstrEndDoc st i).1.parentTags = st.parentTags := by
  cases i with
  | endDocument acts => exact foldStop_stacks runRawAction runRawAction_stacks acts st
  | startDocument acts => exact ⟨rfl, rfl⟩
  | startTag t acts => exact ⟨rfl, rfl⟩
  | endTag t acts => exact ⟨rfl, rfl⟩

/-- With ancestor tracking enabled, a fail-free run over a
prefix-balanced event stream changes the ancestor-stack size by
exactly (opens − closes), and the two stacks keep equal sizes. -/
theorem runEvents_stack_balance (instrs : List Instruction) :
    ∀ (events : List XmlEvent) (st : PState),
      depthOk st.parentAttrs.length events = true →
      st.parentTags.length = st.parentAttrs.length →
      (runEvents true instrs st events).2 = none →
      (runEvents true instrs st events).1.parentAttrs.length + events.countP isCloseEv
          = st.parentAttrs.length + events.countP isOpenEv
      ∧ (runEvents true instrs st events).1.parentTags.length
          = (runEvents true instrs st events).1.parentAttrs.length := by
  intro events
  induction events with
  | nil =>
    intro st _ ht _
    exact ⟨by simp [runEvents, foldStop], by simpa [runEvents, foldStop] using ht⟩
  | cons ev rest ih =>
    intro st hd ht hn
    cases ev with
    | startElement n a =>
      rcases hinner : foldStop (stepInstrStartElem n a) st instrs with ⟨st1, g2⟩
      have hstacks := foldStop_stacks _ (stepInstrStartElem_stacks n a) instrs st
      rw [hinner] at hstacks
      simp only [Prod.fst] at hstacks
      cases g2 with
      | some g =>
        have hev : runEvent true instrs st (.startElement n a) = (st1, some g) := by
          simp [runEvent, hinner]
        rw [runEvents, foldStop_cons_fail _ _ _ _ rest _ hev] at hn
        simp at hn
      | none =>
        have hev : runEvent true instrs st (.startElement n a)
            = ({ st1 with parentAttrs := st1.parentAttrs ++ [a],
                          parentTags := st1.parentTags ++ [n] }, none) := by
          simp [runEvent, hinner]
        set st2 : PState := { st1 with parentAttrs := st1.parentAttrs ++ [a],
                                       parentTags := st1.parentTags ++ [n] } with hst2
        have hrw : runEvents true instrs st (.startElement n a :: rest)
            = runEvents true instrs st2 rest := by
          rw [runEvents, foldStop_cons_none _ _ _ _ rest hev]; rfl
        rw [hrw] at hn ⊢
        have hlen : st2.parentAttrs.length = st.parentAttrs.length + 1 := by
          simp [hst2, hstacks.1]
        have hlent : st2.parentTags.length = st.parentTags.length + 1 := by
          simp [hst2, hstacks.2]
        have hd2 : depthOk st2.parentAttrs.length rest = true := by
          rw [hlen]
          simpa [depthOk] using hd
        have ht2 : st2.parentTags.length = st2.parentAttrs.length := by
          rw [hlen, hlent, ht]
        obtain ⟨ihA, ihT⟩ := ih st2 hd2 ht2 hn
        rw [hlen] at ihA
        refine ⟨?_, ihT⟩
        simp [List.countP_cons, isOpenEv, isCloseEv]
        omega
    | endElement n =>
      rcases hinner : foldStop (stepInstrEndElem n) st instrs with ⟨st1, g2⟩
      have hstacks := foldStop_stacks _ (stepInstrEndElem_stacks n) instrs st
      rw [hinner] at hstacks
      simp only [Prod.fst] at hstacks
      cases g2 with
      | some g =>
        have hev : runEvent true instrs st (.endElement n) = (st1, some g) := by
          simp [runEvent, hinner]
        rw [runEvents, foldStop_cons_fail _ _ _ _ rest _ hev] at hn
        simp at hn
      | none =>
        have hev : runEvent true instrs st (.endElement n)
            = ({ st1 with parentAttrs := st1.parentAttrs.dropLast,
                          parentTags := st1.parentTags.dropLast }, none) := by
          simp [runEvent, hinner]
        set st2 : PState := { st1 with parentAttrs := st1.parentAttrs.dropLast,
                                       parentTags := st1.parentTags.dropLast } with hst2
        have hrw : runEvents true instrs st (.endElement n :: rest)
            = runEvents true instrs st2 rest := by
          rw [runEvents, foldStop_cons_none _ _ _ _ rest hev]; rfl
        rw [hrw] at hn ⊢
        rcases hl : st.parentAttrs.length with _ | d
        · rw [hl] at hd
          simp [depthOk] at hd
        · have hd' : depthOk d rest = true := by
            rw [hl] at hd
            simpa [depthOk] using hd
          have hlen : st2.parentAttrs.length = d := by
            simp [hst2, hstacks.1, List.length_dropLast, hl]
          have hlent : st2.parentTags.length = d := by
            simp [hst2, hstacks.2, List.length_dropLast, ht, hl]
          have hd2 : depthOk st2.parentAttrs.length rest = true := by
            rw [hlen]; exact hd'
          obtain ⟨ihA, ihT⟩ := ih st2 hd2 (by rw [hlen, hlent]) hn
          rw [hlen] at ihA
          refine ⟨?_, ihT⟩
          simp [List.countP_cons, isOpenEv, isCloseEv]
          omega
    | startDocument =>
      rcases hinner : foldStop stepInstrStartDoc st instrs with ⟨st1, g2⟩
      have hstacks := foldStop_stacks _ stepInstrStartDoc_stacks instrs st
      rw [hinner] at hstacks
      simp only [Prod.fst] at hstacks
      cases g2 with
      | some g =>
        have hev : runEvent true instrs st .startDocument = (st1, some g) := by
          simp [runEvent, hinner]
        rw [runEvents, foldStop_cons_fail _ _ _ _ rest _ hev] at hn
        simp at hn
      | none =>
        have hev : runEvent true instrs st .startDocument = (st1, none) := by
          simp [runEvent, hinner]
        have hrw : runEvents true instrs st (.startDocument :: rest)
            = runEvents true instrs st1 rest := by
          rw [runEvents, foldStop_cons_none _ _ _ _ rest hev]; rfl
        rw [hrw] at hn ⊢
        have hd2 : depthOk st1.parentAttrs.length rest = true := by
          rw [hstacks.1]
          simpa [depthOk] using hd
        obtain ⟨ihA, ihT⟩ := ih _ hd2 (by rw [hstacks.1, hstacks.2, ht]) hn
        rw [hstacks.1] at ihA
        refine ⟨?_, ihT⟩
        simp [List.countP_cons, isOpenEv, isCloseEv]
        omega
    | endDocument =>
      rcases hinner : foldStop stepInstrEndDoc st instrs with ⟨st1, g2⟩
      have hstacks := foldStop_stacks _ stepInstrEndDoc_stacks instrs st
      rw [hinner] at hstacks
      simp only [Prod.fst] at hstacks
      cases g2 with
      | some g =>
        have hev : runEvent true instrs st .endDocument = (st1, some g) := by
          simp [runEvent, hinner]
        rw [runEvents, foldStop_cons_fail _ _ _ _ rest _ hev] at hn
        simp at hn
      | none =>
        have hev : runEvent true instrs st .endDocument = (st1, none) := by
          simp [runEvent, hinner]
        have hrw : runEvents true instrs st (.endDocument :: rest)
            = runEvents true instrs st1 rest := by
          rw [runEvents, foldStop_cons_none _ _ _ _ rest hev]; rfl
        rw [hrw] at hn ⊢
        have hd2 : depthOk st1.parentAttrs.length rest = true := by
          rw [hstacks.1]
          simpa [depthOk] using hd
        obtain ⟨ihA, ihT⟩ := ih _ hd2 (by rw [hstacks.1, hstacks.2, ht]) hn
        rw [hstacks.1] at ihA
        refine ⟨?_, ihT⟩
        simp [List.countP_cons, isOpenEv, isCloseEv]
        omega
    | other =>
      have hev : runEvent true instrs st .other = (st, none) := rfl
      have hrw : runEvents true instrs st (.other :: rest)
          = runEvents true instrs st rest := by
        rw [runEvents, foldStop_cons_none _ _ _ _ rest hev]; rfl
      rw [hrw] at hn ⊢
      have hd2 : depthOk st.parentAttrs.length rest = true := by
        simpa [depthOk] using hd
      obtain ⟨ihA, ihT⟩ := ih _ hd2 ht hn
      refine ⟨?_, ihT⟩
      simp only [List.countP_cons, isOpenEv, isCloseEv]
      omega

/-- C8: with ancestor tracking enabled, after any fail-free run over a
balanced event stream the ancestor stacks hold exactly one entry per
currently open element — their size is the number of opens minus the
number of closes (the push-per-open, pop-per-close balance
invariant); applying this to every prefix of a document gives the
invariant at every point between events. -/
theorem claim8_ancestor_stack_depth :
    ∀ (instrs : List Instruction) (events : List XmlEvent),
      hasParentAttributes instrs = true →
      depthOk 0 events = true →
      (processState instrs events).2 = none →
      (processState instrs events).1.parentAttrs.length
          = events.countP isOpenEv - events.countP isCloseEv
      ∧ (processState instrs events).1.parentTags.length
          = events.countP isOpenEv - events.countP isCloseEv := by
  intro instrs events hpa hd hn
  have hps : processState instrs events = runEvents true instrs ⟨"", [], []⟩ events := by
    simp [processState, hpa]
  rw [hps] at hn ⊢
  obtain ⟨h1, h2⟩ := runEvents_stack_balance instrs events ⟨"", [], []⟩ (by simpa using hd) rfl hn
  simp only [List.length_nil] at h1
  refine ⟨by omega, by rw [h2]; omega⟩

/-- C8 witness: the balance invariant at a concrete program with an
ancestor lookup and a concrete balanced document prefix. -/
theorem claim8_ancestor_stack_witness :
    (processState [.startTag "c" [.ParentAttribute 1 "id" ⟨[]⟩]]
        [.startDocument, .startElement "a" [("id", "1")], .startElement "c" [],
         .endElement "c"]).1.parentAttrs.length
      = ([XmlEvent.startDocument, .startElement "a" [("id", "1")], .startElement "c" [],
          .endElement "c"].countP isOpenEv)
        - ([XmlEvent.startDocument, .startElement "a" [("id", "1")], .startElement "c" [],
            .endElement "c"].countP isCloseEv)
    ∧ (processState [.startTag "c" [.ParentAttribute 1 "id" ⟨[]⟩]]
        [.startDocument, .startElement "a" [("id", "1")], .startElement "c" [],
         .endElement "c"]).1.parentTags.length
      = ([XmlEvent.startDocument, .startElement "a" [("id", "1")], .startElement "c" [],
          .endElement "c"].countP isOpenEv)
        - ([XmlEvent.startDocument, .startElement "a" [("id", "1")], .startElement "c" [],
            .endElement "c"].countP isCloseEv) :=
  claim8_ancestor_stack_depth [.startTag "c" [.ParentAttribute 1 "id" ⟨[]⟩]]
    [.startDocument, .startElement "a" [("id", "1")], .startElement "c" [], .endElement "c"]
    (by decide) (by decide) (by decide)

/-- Collecting per-flag entries by repeated appending is flattening. -/
theorem foldl_append_flatAll {α β : Type} (g : α → List β) :
    ∀ (l : List α) (acc : List β),
      l.foldl (fun a f => a ++ g f) acc = acc ++ flatAll g l := by
  intro l
  induction l with
  | nil => intro acc; simp [flatAll]
  | cons x xs ih => intro acc; simp [flatAll, ih, List.append_assoc]

/-- Unfolding one chunk of `slice::chunks` on a nonempty list. -/
theorem chunksList_cons_succ {α : Type} (n : Nat) (x : α) (xs : List α) :
    chunksList (n + 1) (x :: xs) = (x :: xs.take n) :: chunksList (n + 1) (xs.drop n) := by
  simp only [chunksList]

/-- Reading an element of a dropped list. -/
theorem getD_drop' {α : Type} (l : List α) (n m : Nat) (d : α) :
    (l.drop n).getD m d = l.getD (n + m) d := by
  rw [List.getD_eq_getD_get?, List.getD_eq_getD_get?, List.get?_drop]

/-- The chunk-and-zip occurrence grouping of
`clap_app_to_ordered_matches` produces exactly the spec's
per-occurrence tuples: occurrence j is keyed by the index of its first
slot and carries its N captured values. -/
theorem chunks_zip_spec (nm : String) :
    ∀ (k n : Nat) (is : List Nat) (vs : List String),
      is.length = (n + 1) * k → vs.length = (n + 1) * k →
      ((chunksList (n + 1) is).zip (chunksList (n + 1) vs)).map
          (fun p => (p.1.headD 0, nm, p.2))
        = (List.range k).map
            (fun j => (is.getD (j * (n + 1)) 0, nm, (vs.drop (j * (n + 1))).take (n + 1))) := by
  intro k
  induction k with
  | zero =>
    intro n is vs hi hv
    have hi0 : is = [] := List.length_eq_zero.mp (by simpa using hi)
    have hv0 : vs = [] := List.length_eq_zero.mp (by simpa using hv)
    subst hi0; subst hv0
    simp [chunksList]
  | succ k ih =>
    intro n is vs hi hv
    rw [Nat.mul_succ] at hi hv
    rcases is with _ | ⟨i0, is'⟩
    · exfalso; simp at hi; omega
    rcases vs with _ | ⟨v0, vs'⟩
    · exfalso; simp at hv; omega
    have hi1 : is'.length = (n + 1) * k + n := by simp at hi; omega
    have hv1 : vs'.length = (n + 1) * k + n := by simp at hv; omega
    have hdi : (is'.drop n).length = (n + 1) * k := by simp [List.length_drop, hi1]
    have hdv : (vs'.drop n).length = (n + 1) * k := by simp [List.length_drop, hv1]
    rw [chunksList_cons_succ, chunksList_cons_succ, List.zip_cons_cons, List.map_cons]
    rw [ih n (is'.drop n) (vs'.drop n) hdi hdv]
    rw [List.range_succ_eq_map, List.map_cons, List.map_map]
    congr 1
    · simp
    · apply List.map_congr_left
      intro j _
      simp only [Function.comp]
      have harith : (j + 1) * (n + 1) = (n + j * (n + 1)) + 1 := by ring
      have e1 : (is'.drop n).getD (j * (n + 1)) 0
          = (i0 :: is').getD ((j + 1) * (n + 1)) 0 := by
        rw [getD_drop', harith, List.getD_cons_succ]
      have e2 : ((vs'.drop n).drop (j * (n + 1))).take (n + 1)
          = ((v0 :: vs').drop ((j + 1) * (n + 1))).take (n + 1) := by
        rw [List.drop_drop, harith, List.drop_succ_cons]
      rw [e1, e2]

/-- Each flag's entries in the code coincide with the spec's
per-occurrence tuples on well-formed occurrence data. -/
theorem flagEntries_eq_spec (f : FlagSpec) (hf : FlagWF f) :
    flagEntries f = specFlagTuples f := by
  rcases hf with h0 | ⟨k, hi, hv⟩
  · by_cases he : f.indices.isEmpty
    · have hnil : f.indices = [] := List.isEmpty_iff.mp he
      simp [flagEntries, specFlagTuples, h0, hnil]
    · simp [flagEntries, specFlagTuples, h0, he]
  · rcases hn : f.numVals with _ | m
    · rw [hn] at hi
      have hnil : f.indices = [] := List.length_eq_zero.mp (by simpa using hi)
      simp [flagEntries, specFlagTuples, hn, hnil]
    · rw [hn] at hi hv
      by_cases he : f.indices.isEmpty
      · have hnil : f.indices = [] := List.isEmpty_iff.mp he
        have hk : (m + 1) * k = 0 := by rw [← hi, hnil]; rfl
        have hvnil : f.values = [] := List.length_eq_zero.mp (by rw [hv, hk])
        simp [flagEntries, specFlagTuples, hn, hnil, hvnil]
      · have hspec := chunks_zip_spec f.name k m f.indices f.values hi hv
        have hdiv : f.indices.length / (m + 1) = k := by
          rw [hi]; exact Nat.mul_div_cancel_left k (Nat.succ_pos m)
        simp only [flagEntries, specFlagTuples, hn, he, hdiv, if_false,
          Nat.succ_ne_zero, Bool.false_eq_true, ite_false]
        exact hspec

/-- The flattened entry collections of code and spec agree flag by
flag. -/
theorem flatAll_entries_eq :
    ∀ flags : List FlagSpec, (∀ f ∈ flags, FlagWF f) →
      flatAll flagEntries flags = flatAll specFlagTuples flags := by
  intro flags
  induction flags with
  | nil => intro _; rfl
  | cons f fs ih =>
    intro hwf
    simp only [flatAll]
    rw [flagEntries_eq_spec f (hwf f (by simp)), ih (fun g hg => hwf g (by simp [hg]))]

/-- Stable insertion is a permutation with pushing to the front. -/
theorem insertByKey_perm (x : Nat × String × List String) :
    ∀ l, List.Perm (insertByKey x l) (x :: l) := by
  intro l
  induction l with
  | nil => exact List.Perm.refl _
  | cons y ys ih =>
    simp only [insertByKey]
    split
    · exact List.Perm.trans (List.Perm.cons y ih) (List.Perm.swap x y ys)
    · exact List.Perm.refl _

/-- The stable sort permutes its input. -/
theorem sortByKey_perm : ∀ l, List.Perm (sortByKey l) l := by
  intro l
  induction l with
  | nil => exact List.Perm.refl _
  | cons x xs ih =>
    exact List.Perm.trans (insertByKey_perm x (sortByKey xs)) (List.Perm.cons x ih)

/-- Stable insertion preserves sortedness by key. -/
theorem insertByKey_sorted (x : Nat × String × List String) :
    ∀ l, l.Pairwise (fun a b => a.1 ≤ b.1) →
      (insertByKey x l).Pairwise (fun a b => a.1 ≤ b.1) := by
  intro l
  induction l with
  | nil => intro _; simp [insertByKey]
  | cons y ys ih =>
    intro hp
    rcases List.pairwise_cons.mp hp with ⟨hy, hys⟩
    simp only [insertByKey]
    split
    · rename_i hlt
      refine List.pairwise_cons.mpr ⟨?_, ih hys⟩
      intro z hz
      have hz2 := (insertByKey_perm x ys).mem_iff.mp hz
      rcases List.mem_cons.mp hz2 with hzx | hzys
      · rw [hzx]; exact Nat.le_of_lt hlt
      · exact hy z hzys
    · rename_i hge
      refine List.pairwise_cons.mpr ⟨?_, hp⟩
      intro z hz
      rcases List.mem_cons.mp hz with hzy | hzys
      · rw [hzy]; exact Nat.le_of_not_lt hge
      · exact Nat.le_trans (Nat.le_of_not_lt hge) (hy z hzys)

/-- The stable sort sorts by key, ascending. -/
theorem sortByKey_sorted : ∀ l, (sortByKey l).Pairwise (fun a b => a.1 ≤ b.1) := by
  intro l
  induction l with
  | nil => simp [sortByKey]
  | cons x xs ih => exact insertByKey_sorted x (sortByKey xs) ih

/-- Stability of the insertion: among entries with any fixed key, the
inserted entry lands in front exactly when its key matches, and the
relative order of the existing entries is untouched. -/
theorem insertByKey_filter (x : Nat × String × List String) (k : Nat) :
    ∀ l, (insertByKey x l).filter (fun e => e.1 == k)
      = if x.1 == k then x :: l.filter (fun e => e.1 == k)
        else l.filter (fun e => e.1 == k) := by
  intro l
  induction l with
  | nil => simp [insertByKey, List.filter_cons]
  | cons y ys ih =>
    simp only [insertByKey]
    split
    · rename_i hlt
      by_cases hxk : x.1 == k
      · have hxe : x.1 = k := by simpa using hxk
        have hyk : (y.1 == k) = false := by
          simp only [beq_eq_false_iff_ne]
          omega
        simp [List.filter_cons, hyk, ih, hxk]
      · simp [List.filter_cons, ih, hxk]
    · by_cases hxk : x.1 == k <;> simp [List.filter_cons, hxk]

/-- The stable sort never reorders entries sharing a key. -/
theorem sortByKey_filter (k : Nat) :
    ∀ l, (sortByKey l).filter (fun e => e.1 == k) = l.filter (fun e => e.1 == k) := by
  intro l
  induction l with
  | nil => rfl
  | cons x xs ih =>
    simp only [sortByKey]
    rw [insertByKey_filter, ih, List.filter_cons]

/-- C7: on well-formed occurrence data the reconstructor equals the
spec's description — flatten every flag's per-occurrence
(first-slot-position, directive, values) tuples, stable-sort by
position, strip the position; and the sort used is a genuine stable
ascending sort (a permutation, sorted by key, preserving the relative
order of equal keys). -/
theorem claim7_ordered_reconstruction :
    (∀ flags : List FlagSpec, (∀ f ∈ flags, FlagWF f) →
        clapAppToOrderedMatches flags = orderedMatchesSpec flags)
    ∧ (∀ l : List (Nat × String × List String), List.Perm (sortByKey l) l)
    ∧ (∀ l : List (Nat × String × List String),
        (sortByKey l).Pairwise (fun a b => a.1 ≤ b.1))
    ∧ (∀ (l : List (Nat × String × List String)) (k : Nat),
        (sortByKey l).filter (fun e => e.1 == k) = l.filter (fun e => e.1 == k)) := by
  refine ⟨?_, sortByKey_perm, sortByKey_sorted, fun l k => sortByKey_filter k l⟩
  intro flags hwf
  unfold clapAppToOrderedMatches orderedMatchesSpec
  rw [foldl_append_flatAll, List.nil_append, flatAll_entries_eq flags hwf]

/-- C7 witness: the reconstruction equality at a concrete interleaving
of a repeated two-slot flag and a zero-value flag. -/
theorem claim7_ordered_witness :
    clapAppToOrderedMatches exampleFlags = orderedMatchesSpec exampleFlags :=
  claim7_ordered_reconstruction.1 exampleFlags (by
    intro f hf
    simp only [exampleFlags, List.mem_cons, List.not_mem_nil, or_false] at hf
    rcases hf with h | h
    · rw [h]; exact Or.inr ⟨2, by decide, by decide⟩
    · rw [h]; exact Or.inl rfl)

end Anglosaxon
